import Mathlib

set_option maxRecDepth 100000
set_option maxHeartbeats 4000000

/-!
Shallow embedding of the thanksgiving cage-puzzle program
(src/coordinates.rs and src/main.rs).

Modelling conventions:
* Rust `i32` values are modelled by `Int` (coordinates, matrix entries) or
  `Nat` (bit masks, which the program only ever builds from bits 0..26 by
  bitwise or, so they are always non-negative and overflow never occurs).
* A Rust `assert!` failure (panic) is modelled by `Option`: a function that
  can panic returns `none` exactly when the assertion would fire.
* `Result<Cage, PieceDoesNotFit>` is modelled by `Option Cage`
  (`none` = the does-not-fit error).
* The process-wide `HashSet` collections are modelled as duplicate-free
  lists built by first-occurrence insertion (`insertIfNew`); iteration
  order of a Rust `HashSet` is arbitrary, this fixes one order.
* The unbounded `loop` in `Search::search` is modelled with explicit fuel;
  running out of fuel returns `none`.
-/

/-- Mirrors struct `Coordinate` in src/coordinates.rs. -/
structure Coordinate where
  x : Int
  y : Int
  z : Int
deriving DecidableEq, Repr

/-- Mirrors `Coordinate::shift` in src/coordinates.rs. -/
def Coordinate.shift (self s : Coordinate) : Coordinate :=
  ⟨self.x + s.x, self.y + s.y, self.z + s.z⟩

/-- Mirrors struct `Rotation([[i32; 3]; 3])` in src/coordinates.rs.
The nine matrix entries are listed row by row. -/
structure Rotation where
  a00 : Int
  a01 : Int
  a02 : Int
  a10 : Int
  a11 : Int
  a12 : Int
  a20 : Int
  a21 : Int
  a22 : Int
deriving DecidableEq, Repr

/-- Mirrors `Rotation::empty` (the identity matrix). -/
def Rotation.empty : Rotation := ⟨1, 0, 0, 0, 1, 0, 0, 0, 1⟩

/-- Mirrors `Rotation::x90` (rotate 90 degrees about the x-axis). -/
def Rotation.x90 : Rotation := ⟨1, 0, 0, 0, 0, -1, 0, 1, 0⟩

/-- Mirrors `Rotation::y90` (rotate 90 degrees about the y-axis). -/
def Rotation.y90 : Rotation := ⟨0, 0, 1, 0, 1, 0, -1, 0, 0⟩

/-- Mirrors `Rotation::z90` (rotate 90 degrees about the z-axis). -/
def Rotation.z90 : Rotation := ⟨0, -1, 0, 1, 0, 0, 0, 0, 1⟩

/-- Mirrors `Rotation::multiply` in src/coordinates.rs (matrix product,
all nine entries written out exactly as in the source). -/
def Rotation.multiply (self o : Rotation) : Rotation :=
  ⟨self.a00 * o.a00 + self.a01 * o.a10 + self.a02 * o.a20,
   self.a00 * o.a01 + self.a01 * o.a11 + self.a02 * o.a21,
   self.a00 * o.a02 + self.a01 * o.a12 + self.a02 * o.a22,
   self.a10 * o.a00 + self.a11 * o.a10 + self.a12 * o.a20,
   self.a10 * o.a01 + self.a11 * o.a11 + self.a12 * o.a21,
   self.a10 * o.a02 + self.a11 * o.a12 + self.a12 * o.a22,
   self.a20 * o.a00 + self.a21 * o.a10 + self.a22 * o.a20,
   self.a20 * o.a01 + self.a21 * o.a11 + self.a22 * o.a21,
   self.a20 * o.a02 + self.a21 * o.a12 + self.a22 * o.a22⟩

/-- Mirrors `Rotation::rotate` in src/coordinates.rs (matrix-vector product). -/
def Rotation.rotate (self : Rotation) (coord : Coordinate) : Coordinate :=
  ⟨self.a00 * coord.x + self.a01 * coord.y + self.a02 * coord.z,
   self.a10 * coord.x + self.a11 * coord.y + self.a12 * coord.z,
   self.a20 * coord.x + self.a21 * coord.y + self.a22 * coord.z⟩

/-- First-occurrence insertion, modelling `HashSet::insert` on the list
holding the set's elements. -/
def insertIfNew {α : Type} [DecidableEq α] (l : List α) (a : α) : List α :=
  if a ∈ l then l else l ++ [a]

/-- The four successive values taken by a loop variable that starts at the
identity and is multiplied by the generator once per iteration, as in the
nested loops that build `ALL_ROTATIONS`. -/
def rotationLoopValues (g : Rotation) : List Rotation :=
  [Rotation.empty.multiply g,
   (Rotation.empty.multiply g).multiply g,
   ((Rotation.empty.multiply g).multiply g).multiply g,
   (((Rotation.empty.multiply g).multiply g).multiply g).multiply g]

/-- Mirrors the static `ALL_ROTATIONS` in src/coordinates.rs: the three
nested 4-iteration loops generate 64 products `x * y * z`, which are
inserted into a `HashSet`; the set's 24 elements are collected into a list
(here in first-insertion order, one possible `HashSet` iteration order). -/
def ALL_ROTATIONS : List Rotation :=
  ((rotationLoopValues Rotation.x90).flatMap fun x =>
    (rotationLoopValues Rotation.y90).flatMap fun y =>
      (rotationLoopValues Rotation.z90).map fun z =>
        (x.multiply y).multiply z).foldl insertIfNew []

/-- Mirrors struct `Hitmap(i32)` in src/main.rs; the mask is kept as a
`Nat` since the program only ever sets bits 0..26. -/
structure Hitmap where
  mask : Nat
deriving DecidableEq, Repr

/-- Component check of the three `assert!` lines in
`Hitmap::coordinate_to_index`. -/
def Coordinate.validB (c : Coordinate) : Bool :=
  (c.x == -1 || c.x == 0 || c.x == 1) &&
  (c.y == -1 || c.y == 0 || c.y == 1) &&
  (c.z == -1 || c.z == 0 || c.z == 1)

/-- The index formula of `Hitmap::coordinate_to_index`, as a total helper. -/
def idxN (c : Coordinate) : Nat :=
  (c.x + 1 + 3 * (c.y + 1) + 9 * (c.z + 1)).toNat

/-- Mirrors `Hitmap::coordinate_to_index` in src/main.rs: the three
assertions are modelled by returning `none` when a component is outside
the allowed range, otherwise the index `(x+1) + 3*(y+1) + 9*(z+1)`. -/
def Hitmap.coordinate_to_index (coord : Coordinate) : Option Nat :=
  if coord.validB then some (idxN coord) else none

/-- Mirrors `Hitmap::add` in src/main.rs (`self.0 | (1 << index)`);
`none` models the panic inside `coordinate_to_index`. -/
def Hitmap.add (self : Hitmap) (coord : Coordinate) : Option Hitmap :=
  (Hitmap.coordinate_to_index coord).map fun index => ⟨self.mask ||| (1 <<< index)⟩

/-- Mirrors `Hitmap::from_coordinates` in src/main.rs: start from
`Hitmap(0)` and `add` every coordinate in order. -/
def Hitmap.from_coordinates (coords : List Coordinate) : Option Hitmap :=
  coords.foldlM Hitmap.add ⟨0⟩

/-- Mirrors `Hitmap::empty` in src/main.rs (`from_coordinates` of the
empty vector, which is just `Hitmap(0)`). -/
def Hitmap.empty : Hitmap := ⟨0⟩

/-- The 27 coordinates enumerated by the nested `for x / for y / for z`
loops of `Hitmap::coordinates`, in that loop order. -/
def enum27 : List Coordinate :=
  ([-1, 0, 1] : List Int).flatMap fun x =>
    ([-1, 0, 1] : List Int).flatMap fun y =>
      ([-1, 0, 1] : List Int).map fun z => ⟨x, y, z⟩

/-- Mirrors `Hitmap::coordinates` in src/main.rs: for each of the 27 cube
coordinates (in loop order), keep it when its bit is set in the mask.
Every enumerated coordinate is valid, so the `none` arm of the index
lookup (the panic) is unreachable here. -/
def Hitmap.coordinates (self : Hitmap) : List Coordinate :=
  enum27.filterMap fun coordinate =>
    match Hitmap.coordinate_to_index coordinate with
    | some index => if self.mask &&& (1 <<< index) != 0 then some coordinate else none
    | none => none

/-- Mirrors `Hitmap::rotate` in src/main.rs: decode to coordinates, rotate
each, re-encode; `none` models the panic on an out-of-range image. -/
def Hitmap.rotate (self : Hitmap) (rotation : Rotation) : Option Hitmap :=
  Hitmap.from_coordinates (self.coordinates.map fun coord => rotation.rotate coord)

/-- Mirrors `Hitmap::shift` in src/main.rs: decode, translate each
coordinate, re-encode; `none` models the panic on an out-of-range image. -/
def Hitmap.shift (self : Hitmap) (s : Coordinate) : Option Hitmap :=
  Hitmap.from_coordinates (self.coordinates.map fun coord => coord.shift s)

/-- Total helper: the value of `Hitmap.rotate` when it does not panic. -/
def Hitmap.rotateD (self : Hitmap) (rotation : Rotation) : Hitmap :=
  (self.rotate rotation).getD ⟨0⟩

/-- The order by which `Cage::add` sorts its piece list: the derived
`Ord` on `Hitmap(i32)`, i.e. comparison of the mask values. -/
def hitLE (a b : Hitmap) : Prop := a.mask ≤ b.mask

instance : DecidableRel hitLE := fun a b => inferInstanceAs (Decidable (a.mask ≤ b.mask))

instance : IsTotal Hitmap hitLE := ⟨fun a b => Nat.le_total a.mask b.mask⟩

instance : IsTrans Hitmap hitLE := ⟨fun _ _ _ => Nat.le_trans⟩

instance : IsAntisymm Hitmap hitLE := ⟨fun a b h1 h2 => by
  cases a; cases b
  simp only [hitLE] at h1 h2
  exact congrArg Hitmap.mk (Nat.le_antisymm h1 h2)⟩

/-- Mirrors struct `Cage` in src/main.rs. -/
structure Cage where
  hitmap : Hitmap
  pieces : List Hitmap
deriving DecidableEq, Repr

/-- Mirrors `Cage::new` in src/main.rs. -/
def Cage.new : Cage := ⟨Hitmap.empty, []⟩

/-- Mirrors `Cage::add` in src/main.rs: fail (the `PieceDoesNotFit`
error, modelled by `none`) when the piece's mask intersects the cage's
mask, otherwise union the masks and append the piece to the re-sorted
piece list (`Vec::sort`; any sort gives the same result since the order
on masks is total and antisymmetric). -/
def Cage.add (self : Cage) (piece : Hitmap) : Option Cage :=
  if self.hitmap.mask &&& piece.mask ≠ 0 then
    none
  else
    some ⟨⟨self.hitmap.mask ||| piece.mask⟩,
          List.insertionSort hitLE (self.pieces ++ [piece])⟩

/-- Mirrors `Cage::canonicalize` in src/main.rs: scan all rotations,
keeping the rotation of `self` whose hitmap mask is smallest; a tie
(`new_hitmap == canon_cage.hitmap`) never replaces the current
representative (the nested `>=` check always triggers `continue` there).
The rotated piece list is computed (as in the source) whenever
`new_hitmap <= canon_cage.hitmap`, before the tie check, and is NOT
re-sorted. `none` models a panic inside `Hitmap::rotate`.
This is the loop body; the scan itself is `Cage.canonicalize` below. -/
def canonicalizeBody (self canon_cage : Cage) (rotation : Rotation) : Option Cage := do
  let new_hitmap ← self.hitmap.rotate rotation
  if new_hitmap.mask ≤ canon_cage.hitmap.mask then
    let new_pieces ← self.pieces.mapM fun piece => piece.rotate rotation
    if new_hitmap.mask = canon_cage.hitmap.mask then
      pure canon_cage
    else
      pure ⟨new_hitmap, new_pieces⟩
  else
    pure canon_cage

/-- Mirrors the whole rotation scan of `Cage::canonicalize`: fold the loop
body over all rotations starting from `self` itself. -/
def Cage.canonicalize (self : Cage) : Option Cage :=
  ALL_ROTATIONS.foldlM (canonicalizeBody self) self

/-- Mirrors struct `HitmapBuilder` in src/main.rs. -/
structure HitmapBuilder where
  hitmap : Hitmap
  coordinate : Coordinate
deriving DecidableEq, Repr

/-- Mirrors `HitmapBuilder::teleport`: move the current position and mark
it; `none` models the panic on an out-of-range coordinate. -/
def HitmapBuilder.teleport (self : HitmapBuilder) (coordinate : Coordinate) :
    Option HitmapBuilder :=
  (self.hitmap.add coordinate).map fun h => ⟨h, coordinate⟩

/-- Mirrors `HitmapBuilder::new`: start from the empty hitmap and
teleport to (and mark) the given coordinate. -/
def HitmapBuilder.new (coordinate : Coordinate) : Option HitmapBuilder :=
  HitmapBuilder.teleport ⟨Hitmap.empty, coordinate⟩ coordinate

/-- Mirrors `HitmapBuilder::shift`: teleport to the current position
translated by `amount`. -/
def HitmapBuilder.shift (self : HitmapBuilder) (amount : Coordinate) :
    Option HitmapBuilder :=
  self.teleport (self.coordinate.shift amount)

/-- The unit vector `x` of `Search::new`. -/
def unitX : Coordinate := ⟨1, 0, 0⟩

/-- The unit vector `y` of `Search::new`. -/
def unitY : Coordinate := ⟨0, 1, 0⟩

/-- The unit vector `z` of `Search::new`. -/
def unitZ : Coordinate := ⟨0, 0, 1⟩

/-- The corner `(-1,-1,-1)` of `Search::new`. -/
def corner : Coordinate := ⟨-1, -1, -1⟩

/-- The first base piece of `Search::new`: the exact builder sequence
from src/main.rs. -/
def piece1 : Option Hitmap := do
  let builder ← HitmapBuilder.new corner
  let builder ← builder.shift unitX
  let builder ← builder.shift unitX
  let builder ← builder.shift unitZ
  let builder ← builder.teleport corner
  let builder ← builder.shift unitZ
  let builder ← builder.teleport corner
  let builder ← builder.shift unitY
  let builder ← builder.shift unitY
  pure builder.hitmap

/-- The second base piece of `Search::new`: `piece1` shifted by the unit
z vector. -/
def piece2 : Option Hitmap := do
  let p1 ← piece1
  p1.shift unitZ

/-- Mirrors struct `Search` in src/main.rs; the `HashSet<Hitmap>` of
candidate pieces is modelled as a duplicate-free list. -/
structure Search where
  all_pieces : List Hitmap
deriving DecidableEq, Repr

/-- Mirrors `Search::new` in src/main.rs: build the two base pieces and
insert every rotation of both into the candidate set. -/
def Search.new : Option Search := do
  let p1 ← piece1
  let p2 ← piece2
  let all_pieces ← ALL_ROTATIONS.foldlM
    (fun acc rotation => do
      let q1 ← p1.rotate rotation
      let q2 ← p2.rotate rotation
      pure (insertIfNew (insertIfNew acc q1) q2))
    []
  pure ⟨all_pieces⟩

/-- The inner `for piece in &self.all_pieces` loop of `Search::search`:
try to add every candidate piece to `cage`, pushing each success onto the
fringe (the work-list stack, whose top is the list head) and clearing the
`is_end_state` flag. -/
def expand (cage : Cage) : List Hitmap → List Cage → Bool → List Cage × Bool
  | [], fringe, is_end_state => (fringe, is_end_state)
  | piece :: rest, fringe, is_end_state =>
    match cage.add piece with
    | none => expand cage rest fringe is_end_state
    | some new_cage => expand cage rest (new_cage :: fringe) false

/-- The pop/expand loop of `Search::search`, with explicit fuel. Each
iteration pops one cage from the fringe; a terminal cage is canonicalized
and inserted into the result set (a `HashSet<Cage>`, modelled as a
duplicate-free list). `none` means the fuel ran out before the fringe
emptied, or a rotation panicked inside `canonicalize`. -/
def searchLoop (pieces : List Hitmap) : Nat → List Cage → List Cage → Option (List Cage)
  | 0, fringe, canonical_end_states =>
    if fringe.isEmpty then some canonical_end_states else none
  | n + 1, fringe, canonical_end_states =>
    match fringe with
    | [] => some canonical_end_states
    | cage :: rest =>
      match expand cage pieces rest true with
      | (fringe', true) =>
        match cage.canonicalize with
        | none => none
        | some cc =>
          searchLoop pieces n fringe'
            (if cc ∈ canonical_end_states then canonical_end_states
             else cc :: canonical_end_states)
      | (fringe', false) => searchLoop pieces n fringe' canonical_end_states

/-- Mirrors `Search::search` in src/main.rs: run the pop/expand loop from
the single empty cage with the given fuel. -/
def Search.search (self : Search) (fuel : Nat) : Option (List Cage) :=
  searchLoop self.all_pieces fuel [Cage.new] []

/-! ### Basic facts about the coordinate enumeration and the index map -/

/-- Left inverse of `idxN` on indices below 27. -/
def coordOfIndex (i : Nat) : Coordinate :=
  ⟨((i % 3 : Nat) : Int) - 1, ((i / 3 % 3 : Nat) : Int) - 1, ((i / 9 : Nat) : Int) - 1⟩

/-- Injectivity of `Hitmap.mk`. -/
theorem Hitmap.mask_inj {a b : Hitmap} (h : a.mask = b.mask) : a = b := by
  cases a; cases b; exact congrArg Hitmap.mk h

theorem enum27_validB : ∀ c ∈ enum27, c.validB = true := by decide

theorem enum27_idx_lt : ∀ c ∈ enum27, idxN c < 27 := by decide

theorem enum27_idx_inj : ∀ a ∈ enum27, ∀ b ∈ enum27, idxN a = idxN b → a = b := by decide

theorem coordOfIndex_mem : ∀ i ∈ List.range 27,
    coordOfIndex i ∈ enum27 ∧ idxN (coordOfIndex i) = i := by decide

theorem mem_enum27_of_validB (c : Coordinate) (h : c.validB = true) : c ∈ enum27 := by
  obtain ⟨x, y, z⟩ := c
  simp only [Coordinate.validB, Bool.and_eq_true, Bool.or_eq_true, beq_iff_eq] at h
  obtain ⟨⟨hx, hy⟩, hz⟩ := h
  rcases hx with (rfl | rfl) | rfl <;> rcases hy with (rfl | rfl) | rfl <;>
    rcases hz with (rfl | rfl) | rfl <;> decide

theorem idx_lt_of_validB (c : Coordinate) (h : c.validB = true) : idxN c < 27 :=
  enum27_idx_lt c (mem_enum27_of_validB c h)

/-- A rotation is good when it maps every cube coordinate to a valid
coordinate, i.e. `Hitmap.rotate` by it can never panic. -/
def GoodRot (R : Rotation) : Prop := ∀ c ∈ enum27, (R.rotate c).validB = true

instance : DecidablePred GoodRot := fun R =>
  inferInstanceAs (Decidable (∀ c ∈ enum27, (R.rotate c).validB = true))

theorem allRotations_good : ∀ R ∈ ALL_ROTATIONS, GoodRot R := by decide

theorem allRotations_mult_mem :
    ∀ R ∈ ALL_ROTATIONS, ∀ S ∈ ALL_ROTATIONS, R.multiply S ∈ ALL_ROTATIONS := by decide

theorem allRotations_inverse : ∀ R ∈ ALL_ROTATIONS, ∃ T ∈ ALL_ROTATIONS,
    R.multiply T = Rotation.empty ∧ T.multiply R = Rotation.empty := by decide

theorem empty_goodRot : GoodRot Rotation.empty := by decide

theorem rotate_multiply (R S : Rotation) (c : Coordinate) :
    (R.multiply S).rotate c = R.rotate (S.rotate c) := by
  simp only [Rotation.multiply, Rotation.rotate, Coordinate.mk.injEq]
  refine ⟨by ring, by ring, by ring⟩

theorem empty_rotate (c : Coordinate) : Rotation.empty.rotate c = c := by
  cases c
  simp only [Rotation.empty, Rotation.rotate, Coordinate.mk.injEq]
  refine ⟨by ring, by ring, by ring⟩

/-! ### Bit-level helper lemmas -/

theorem and_one_shiftLeft_ne_zero (m i : Nat) :
    m &&& (1 <<< i) ≠ 0 ↔ m.testBit i = true := by
  rw [Nat.one_shiftLeft]
  constructor
  · intro h
    obtain ⟨j, hj⟩ := Nat.ne_zero_implies_bit_true h
    rw [Nat.testBit_and, Bool.and_eq_true, Nat.testBit_two_pow] at hj
    obtain ⟨h1, h2⟩ := hj
    obtain rfl := of_decide_eq_true h2
    exact h1
  · intro h hz
    have hbit : (m &&& 2 ^ i).testBit i = true := by
      rw [Nat.testBit_and, h, Nat.testBit_two_pow]
      simp
    rw [hz] at hbit
    simp at hbit

theorem lt_two_pow_27_of_bits (m : Nat) (h : ∀ j, m.testBit j = true → j < 27) :
    m < 2 ^ 27 := by
  by_contra hge
  obtain ⟨i, hi, hbit⟩ := Nat.ge_two_pow_implies_high_bit_true (Nat.le_of_not_lt hge)
  exact absurd (h i hbit) (Nat.not_lt.mpr hi)

theorem testBit_false_of_ge (m : Nat) (hlt : m < 2 ^ 27) (j : Nat) (hj : 27 ≤ j) :
    m.testBit j = false :=
  Nat.testBit_lt_two_pow (lt_of_lt_of_le hlt (Nat.pow_le_pow_right (by norm_num) hj))

/-! ### Specification of `from_coordinates`, `coordinates` and `rotate` -/

theorem from_coordinates_go (cs : List Coordinate) (start : Hitmap)
    (hv : ∀ c ∈ cs, c.validB = true) :
    ∃ m : Hitmap, cs.foldlM Hitmap.add start = some m ∧
      ∀ j, m.mask.testBit j = true ↔
        (start.mask.testBit j = true ∨ ∃ c ∈ cs, idxN c = j) := by
  induction cs generalizing start with
  | nil =>
    refine ⟨start, rfl, fun j => ?_⟩
    simp
  | cons c cs ih =>
    have hc : c.validB = true := hv c (List.mem_cons_self c cs)
    obtain ⟨m, hm, hbits⟩ :=
      ih ⟨start.mask ||| (1 <<< idxN c)⟩ (fun d hd => hv d (List.mem_cons_of_mem c hd))
    refine ⟨m, ?_, fun j => ?_⟩
    · rw [List.foldlM_cons]
      have step : Hitmap.add start c = some ⟨start.mask ||| (1 <<< idxN c)⟩ := by
        simp [Hitmap.add, Hitmap.coordinate_to_index, hc]
      rw [step]
      exact hm
    · rw [hbits j]
      simp only [Nat.testBit_or, Bool.or_eq_true, Nat.one_shiftLeft, Nat.testBit_two_pow,
        decide_eq_true_eq, List.mem_cons]
      constructor
      · rintro (⟨h | h⟩ | ⟨d, hd, hj⟩)
        · exact Or.inl h
        · exact Or.inr ⟨c, Or.inl rfl, h⟩
        · exact Or.inr ⟨d, Or.inr hd, hj⟩
      · rintro (h | ⟨d, rfl | hd, hj⟩)
        · exact Or.inl (Or.inl h)
        · exact Or.inl (Or.inr hj)
        · exact Or.inr ⟨d, hd, hj⟩

theorem from_coordinates_spec (cs : List Coordinate) (hv : ∀ c ∈ cs, c.validB = true) :
    ∃ m : Hitmap, Hitmap.from_coordinates cs = some m ∧
      (∀ j, m.mask.testBit j = true ↔ ∃ c ∈ cs, idxN c = j) ∧ m.mask < 2 ^ 27 := by
  obtain ⟨m, hm, hbits⟩ := from_coordinates_go cs ⟨0⟩ hv
  have hbits' : ∀ j, m.mask.testBit j = true ↔ ∃ c ∈ cs, idxN c = j := by
    intro j
    rw [hbits j]
    simp
  refine ⟨m, hm, hbits', ?_⟩
  refine lt_two_pow_27_of_bits _ fun j hj => ?_
  obtain ⟨c, hc, rfl⟩ := (hbits' j).mp hj
  exact idx_lt_of_validB c (hv c hc)

theorem mem_coordinates (h : Hitmap) (c : Coordinate) :
    c ∈ h.coordinates ↔ c ∈ enum27 ∧ h.mask.testBit (idxN c) = true := by
  unfold Hitmap.coordinates
  rw [List.mem_filterMap]
  constructor
  · rintro ⟨a, ha, hf⟩
    have hav := enum27_validB a ha
    simp only [Hitmap.coordinate_to_index, hav, if_true] at hf
    split at hf
    · obtain rfl := Option.some_injective _ hf
      rename_i hcond
      rw [bne_iff_ne] at hcond
      exact ⟨ha, (and_one_shiftLeft_ne_zero _ _).mp hcond⟩
    · exact absurd hf (by simp)
  · rintro ⟨hmem, hbit⟩
    refine ⟨c, hmem, ?_⟩
    have hne : h.mask &&& (1 <<< idxN c) ≠ 0 := (and_one_shiftLeft_ne_zero _ _).mpr hbit
    simp [Hitmap.coordinate_to_index, enum27_validB c hmem, hne]

theorem rotate_spec (h : Hitmap) (R : Rotation) (hR : GoodRot R) :
    h.rotate R = some (h.rotateD R) ∧
    (∀ j, (h.rotateD R).mask.testBit j = true ↔
      ∃ c ∈ enum27, h.mask.testBit (idxN c) = true ∧ idxN (R.rotate c) = j) ∧
    (h.rotateD R).mask < 2 ^ 27 := by
  have hv : ∀ d ∈ h.coordinates.map (fun coord => R.rotate coord), d.validB = true := by
    intro d hd
    rw [List.mem_map] at hd
    obtain ⟨c, hc, rfl⟩ := hd
    exact hR c ((mem_coordinates h c).mp hc).1
  obtain ⟨m, hm, hbits, hlt⟩ := from_coordinates_spec _ hv
  have hrot : h.rotate R = some m := hm
  have hD : h.rotateD R = m := by
    unfold Hitmap.rotateD
    rw [hrot]
    rfl
  rw [hD, hrot]
  refine ⟨rfl, fun j => ?_, hlt⟩
  rw [hbits j]
  simp only [List.mem_map, mem_coordinates]
  constructor
  · rintro ⟨d, ⟨c, ⟨hc1, hc2⟩, rfl⟩, hj⟩
    exact ⟨c, hc1, hc2, hj⟩
  · rintro ⟨c, hc1, hc2, hj⟩
    exact ⟨R.rotate c, ⟨c, ⟨hc1, hc2⟩, rfl⟩, hj⟩

/-! ### Rotation algebra on hitmaps -/

theorem goodRot_multiply {R S : Rotation} (hS : GoodRot S) (hR : GoodRot R) :
    GoodRot (S.multiply R) := by
  intro c hc
  rw [rotate_multiply]
  exact hS (R.rotate c) (mem_enum27_of_validB _ (hR c hc))

theorem rotateD_rotateD (h : Hitmap) (R S : Rotation) (hR : GoodRot R) (hS : GoodRot S) :
    (h.rotateD R).rotateD S = h.rotateD (S.multiply R) := by
  obtain ⟨_, hbR, _⟩ := rotate_spec h R hR
  obtain ⟨_, hbS, _⟩ := rotate_spec (h.rotateD R) S hS
  obtain ⟨_, hbSR, _⟩ := rotate_spec h (S.multiply R) (goodRot_multiply hS hR)
  apply Hitmap.mask_inj
  apply Nat.eq_of_testBit_eq
  intro j
  rw [Bool.eq_iff_iff, hbS j, hbSR j]
  constructor
  · rintro ⟨c, hc, hin, hj⟩
    obtain ⟨c0, hc0, hb0, hidx⟩ := (hbR (idxN c)).mp hin
    have hc0mem : R.rotate c0 ∈ enum27 := mem_enum27_of_validB _ (hR c0 hc0)
    have hcc : R.rotate c0 = c := enum27_idx_inj _ hc0mem _ hc hidx
    refine ⟨c0, hc0, hb0, ?_⟩
    rw [rotate_multiply, hcc]
    exact hj
  · rintro ⟨c0, hc0, hb0, hj⟩
    refine ⟨R.rotate c0, mem_enum27_of_validB _ (hR c0 hc0), ?_, ?_⟩
    · exact (hbR (idxN (R.rotate c0))).mpr ⟨c0, hc0, hb0, rfl⟩
    · rw [rotate_multiply] at hj
      exact hj

theorem rotateD_empty (h : Hitmap) (hlt : h.mask < 2 ^ 27) :
    h.rotateD Rotation.empty = h := by
  obtain ⟨_, hb, _⟩ := rotate_spec h Rotation.empty empty_goodRot
  apply Hitmap.mask_inj
  apply Nat.eq_of_testBit_eq
  intro j
  rw [Bool.eq_iff_iff, hb j]
  constructor
  · rintro ⟨c, hc, hbit, hj⟩
    rw [empty_rotate] at hj
    subst hj
    exact hbit
  · intro hbit
    have hj : j < 27 := by
      by_contra hge
      rw [testBit_false_of_ge h.mask hlt j (Nat.le_of_not_lt hge)] at hbit
      exact Bool.false_ne_true hbit
    obtain ⟨hmem, hidx⟩ := coordOfIndex_mem j (List.mem_range.mpr hj)
    refine ⟨coordOfIndex j, hmem, ?_, ?_⟩
    · rw [hidx]
      exact hbit
    · rw [empty_rotate, hidx]

theorem rotateD_lt (h : Hitmap) (R : Rotation) (hR : GoodRot R) :
    (h.rotateD R).mask < 2 ^ 27 :=
  (rotate_spec h R hR).2.2

theorem rotateD_ne_zero (p : Hitmap) (R : Rotation) (hR : GoodRot R)
    (hnz : p.mask ≠ 0) (hlt : p.mask < 2 ^ 27) : (p.rotateD R).mask ≠ 0 := by
  obtain ⟨i, hi⟩ := Nat.ne_zero_implies_bit_true hnz
  have hilt : i < 27 := by
    by_contra hge
    rw [testBit_false_of_ge p.mask hlt i (Nat.le_of_not_lt hge)] at hi
    exact Bool.false_ne_true hi
  obtain ⟨hmem, hidx⟩ := coordOfIndex_mem i (List.mem_range.mpr hilt)
  obtain ⟨_, hb, _⟩ := rotate_spec p R hR
  intro hz
  have hbit : (p.rotateD R).mask.testBit (idxN (R.rotate (coordOfIndex i))) = true :=
    (hb _).mpr ⟨coordOfIndex i, hmem, by rw [hidx]; exact hi, rfl⟩
  rw [hz] at hbit
  simp at hbit

theorem rotateD_and_ne_zero (a b : Hitmap) (R : Rotation) (hR : GoodRot R)
    (ha : a.mask < 2 ^ 27) (hab : a.mask &&& b.mask ≠ 0) :
    (a.rotateD R).mask &&& (b.rotateD R).mask ≠ 0 := by
  obtain ⟨i, hi⟩ := Nat.ne_zero_implies_bit_true hab
  rw [Nat.testBit_and, Bool.and_eq_true] at hi
  obtain ⟨hia, hib⟩ := hi
  have hilt : i < 27 := by
    by_contra hge
    rw [testBit_false_of_ge a.mask ha i (Nat.le_of_not_lt hge)] at hia
    exact Bool.false_ne_true hia
  obtain ⟨hmem, hidx⟩ := coordOfIndex_mem i (List.mem_range.mpr hilt)
  obtain ⟨_, hbA, _⟩ := rotate_spec a R hR
  obtain ⟨_, hbB, _⟩ := rotate_spec b R hR
  intro hz
  have h1 : (a.rotateD R).mask.testBit (idxN (R.rotate (coordOfIndex i))) = true :=
    (hbA _).mpr ⟨coordOfIndex i, hmem, by rw [hidx]; exact hia, rfl⟩
  have h2 : (b.rotateD R).mask.testBit (idxN (R.rotate (coordOfIndex i))) = true :=
    (hbB _).mpr ⟨coordOfIndex i, hmem, by rw [hidx]; exact hib, rfl⟩
  have hboth : ((a.rotateD R).mask &&& (b.rotateD R).mask).testBit
      (idxN (R.rotate (coordOfIndex i))) = true := by
    rw [Nat.testBit_and, h1, h2]
    rfl
  rw [hz] at hboth
  simp at hboth

/-! ### The canonicalize fold -/

/-- The net effect of one iteration of the `for rotation in &*ALL_ROTATIONS`
loop body of `Cage::canonicalize`, when the rotation cannot panic: replace
the current representative exactly when the rotated hitmap is strictly
smaller. -/
def canonStep (self : Cage) (canon_cage : Cage) (rotation : Rotation) : Cage :=
  if (self.hitmap.rotateD rotation).mask < canon_cage.hitmap.mask then
    ⟨self.hitmap.rotateD rotation, self.pieces.map fun piece => piece.rotateD rotation⟩
  else canon_cage

theorem mapM_rotate_some (pieces : List Hitmap) (R : Rotation) (hR : GoodRot R) :
    pieces.mapM (fun piece => piece.rotate R) =
      some (pieces.map fun piece => piece.rotateD R) := by
  induction pieces with
  | nil => rfl
  | cons p ps ih =>
    rw [List.mapM_cons, (rotate_spec p R hR).1, ih]
    rfl

theorem canonicalizeBody_eq (self init : Cage) (R : Rotation) (hR : GoodRot R) :
    canonicalizeBody self init R = some (canonStep self init R) := by
  unfold canonicalizeBody
  rw [(rotate_spec self.hitmap R hR).1]
  show (if (self.hitmap.rotateD R).mask ≤ init.hitmap.mask then
      (self.pieces.mapM fun piece => piece.rotate R) >>= fun new_pieces =>
        if (self.hitmap.rotateD R).mask = init.hitmap.mask then pure init
        else pure (⟨self.hitmap.rotateD R, new_pieces⟩ : Cage)
    else pure init) = some (canonStep self init R)
  by_cases hle : (self.hitmap.rotateD R).mask ≤ init.hitmap.mask
  · rw [if_pos hle, mapM_rotate_some self.pieces R hR]
    show (if (self.hitmap.rotateD R).mask = init.hitmap.mask then (pure init : Option Cage)
      else pure ⟨self.hitmap.rotateD R, self.pieces.map fun piece => piece.rotateD R⟩) =
        some (canonStep self init R)
    by_cases heq : (self.hitmap.rotateD R).mask = init.hitmap.mask
    · rw [if_pos heq]
      have hstep : canonStep self init R = init := by
        unfold canonStep
        rw [if_neg (by rw [heq]; exact Nat.lt_irrefl _)]
      rw [hstep]
      rfl
    · rw [if_neg heq]
      have hstep : canonStep self init R =
          ⟨self.hitmap.rotateD R, self.pieces.map fun piece => piece.rotateD R⟩ := by
        unfold canonStep
        rw [if_pos (Nat.lt_of_le_of_ne hle heq)]
      rw [hstep]
      rfl
  · rw [if_neg hle]
    have hstep : canonStep self init R = init := by
      unfold canonStep
      rw [if_neg (fun hlt => hle (Nat.le_of_lt hlt))]
    rw [hstep]
    rfl

theorem canonicalize_go (self : Cage) (l : List Rotation)
    (hl : ∀ R ∈ l, GoodRot R) (init : Cage) :
    l.foldlM (canonicalizeBody self) init = some (l.foldl (canonStep self) init) := by
  induction l generalizing init with
  | nil => rfl
  | cons R rs ih =>
    rw [List.foldlM_cons, canonicalizeBody_eq self init R (hl R (List.mem_cons_self R rs)),
      List.foldl_cons]
    show rs.foldlM (canonicalizeBody self) (canonStep self init R) =
      some (rs.foldl (canonStep self) (canonStep self init R))
    exact ih (fun S hS => hl S (List.mem_cons_of_mem R hS)) (canonStep self init R)

theorem canonicalize_eq_foldl (self : Cage) :
    self.canonicalize = some (ALL_ROTATIONS.foldl (canonStep self) self) :=
  canonicalize_go self ALL_ROTATIONS allRotations_good self

theorem canonFold_spec (self : Cage) (l : List Rotation) (init : Cage) :
    (l.foldl (canonStep self) init).hitmap.mask ≤ init.hitmap.mask ∧
    (∀ R ∈ l, (l.foldl (canonStep self) init).hitmap.mask ≤ (self.hitmap.rotateD R).mask) ∧
    (l.foldl (canonStep self) init = init ∨ ∃ R ∈ l,
      l.foldl (canonStep self) init =
        ⟨self.hitmap.rotateD R, self.pieces.map fun piece => piece.rotateD R⟩) := by
  induction l generalizing init with
  | nil => exact ⟨Nat.le_refl _, fun R hR => absurd hR (List.not_mem_nil R), Or.inl rfl⟩
  | cons R rs ih =>
    rw [List.foldl_cons]
    obtain ⟨h1, h2, h3⟩ := ih (canonStep self init R)
    have hstep_le : (canonStep self init R).hitmap.mask ≤ init.hitmap.mask := by
      unfold canonStep
      split
      · exact Nat.le_of_lt (by assumption)
      · exact Nat.le_refl _
    have hstep_R : (canonStep self init R).hitmap.mask ≤ (self.hitmap.rotateD R).mask := by
      unfold canonStep
      split
      · exact Nat.le_refl _
      · exact Nat.le_of_not_lt (by assumption)
    refine ⟨Nat.le_trans h1 hstep_le, ?_, ?_⟩
    · intro S hS
      rcases List.mem_cons.mp hS with rfl | hS'
      · exact Nat.le_trans h1 hstep_R
      · exact h2 S hS'
    · rcases h3 with h3 | ⟨S, hS, h3⟩
      · rw [h3]
        unfold canonStep
        split
        · exact Or.inr ⟨R, List.mem_cons_self R rs, rfl⟩
        · exact Or.inl rfl
      · exact Or.inr ⟨S, List.mem_cons_of_mem R hS, h3⟩

theorem canonFold_no_update (self : Cage) (l : List Rotation) (init : Cage)
    (h : ∀ R ∈ l, ¬ (self.hitmap.rotateD R).mask < init.hitmap.mask) :
    l.foldl (canonStep self) init = init := by
  induction l with
  | nil => rfl
  | cons R rs ih =>
    rw [List.foldl_cons]
    have hstep : canonStep self init R = init := by
      unfold canonStep
      rw [if_neg (h R (List.mem_cons_self R rs))]
    rw [hstep]
    exact ih (fun S hS => h S (List.mem_cons_of_mem R hS))

/-! ### Canonicalization: characterization and idempotence -/

theorem canonicalize_result (c : Cage) :
    c.canonicalize = some (ALL_ROTATIONS.foldl (canonStep c) c) ∧
    ((ALL_ROTATIONS.foldl (canonStep c) c) = c ∨ ∃ R ∈ ALL_ROTATIONS,
      (ALL_ROTATIONS.foldl (canonStep c) c) =
        ⟨c.hitmap.rotateD R, c.pieces.map fun piece => piece.rotateD R⟩) :=
  ⟨canonicalize_eq_foldl c, (canonFold_spec c ALL_ROTATIONS c).2.2⟩

theorem canonicalize_idem_aux (c : Cage) :
    Cage.canonicalize (ALL_ROTATIONS.foldl (canonStep c) c) =
      some (ALL_ROTATIONS.foldl (canonStep c) c) := by
  obtain ⟨h1, h2, h3⟩ := canonFold_spec c ALL_ROTATIONS c
  rw [canonicalize_eq_foldl (ALL_ROTATIONS.foldl (canonStep c) c)]
  rw [canonFold_no_update (ALL_ROTATIONS.foldl (canonStep c) c) ALL_ROTATIONS
    (ALL_ROTATIONS.foldl (canonStep c) c) ?_]
  intro S hS
  rcases h3 with h3 | ⟨R, hR, h3⟩
  · rw [h3]
    exact Nat.not_lt.mpr (by rw [h3] at h2; exact h2 S hS)
  · have hhit : (ALL_ROTATIONS.foldl (canonStep c) c).hitmap = c.hitmap.rotateD R := by
      rw [h3]
    rw [hhit, rotateD_rotateD c.hitmap R S (allRotations_good R hR) (allRotations_good S hS)]
    rw [hhit] at h2
    exact Nat.not_lt.mpr (h2 (S.multiply R) (allRotations_mult_mem S hS R hR))

/-! ### The `Cage.add` operation -/

theorem nat_or_ne_zero_left (a b : Nat) (h : a ||| b = 0) : a = 0 := by
  apply Nat.eq_of_testBit_eq
  intro i
  have : (a ||| b).testBit i = false := by rw [h]; simp
  rw [Nat.testBit_or, Bool.or_eq_false_iff] at this
  rw [this.1]
  simp

theorem cage_add_none_iff (c : Cage) (p : Hitmap) :
    c.add p = none ↔ c.hitmap.mask &&& p.mask ≠ 0 := by
  unfold Cage.add
  split <;> simp_all

theorem cage_add_some (c : Cage) (p : Hitmap) (h : c.hitmap.mask &&& p.mask = 0) :
    c.add p = some ⟨⟨c.hitmap.mask ||| p.mask⟩,
      List.insertionSort hitLE (c.pieces ++ [p])⟩ := by
  unfold Cage.add
  rw [if_neg (fun hne => hne h)]

theorem cage_add_some_inv (c : Cage) (p : Hitmap) (d : Cage) (h : c.add p = some d) :
    c.hitmap.mask &&& p.mask = 0 ∧
      d = ⟨⟨c.hitmap.mask ||| p.mask⟩, List.insertionSort hitLE (c.pieces ++ [p])⟩ := by
  unfold Cage.add at h
  split at h
  · exact absurd h (by simp)
  · rename_i hcond
    rw [Decidable.not_not] at hcond
    exact ⟨hcond, (Option.some_injective _ h).symm⟩

/-! ### The candidate piece set built by `Search::new` -/

theorem piece1_eq : piece1 = some ⟨2639⟩ := by decide

theorem piece2_eq : piece2 = some ⟨1351168⟩ := by decide

theorem insertIfNew_mem {α : Type} [DecidableEq α] (l : List α) (a x : α) :
    x ∈ insertIfNew l a ↔ x ∈ l ∨ x = a := by
  unfold insertIfNew
  split
  · rename_i hmem
    constructor
    · exact Or.inl
    · rintro (h | rfl)
      · exact h
      · exact hmem
  · simp [List.mem_append]

theorem searchNew_fold (p1 p2 : Hitmap) (l : List Rotation) (hl : ∀ R ∈ l, GoodRot R)
    (acc : List Hitmap) :
    ∃ L, l.foldlM
      (fun acc rotation => do
        let q1 ← p1.rotate rotation
        let q2 ← p2.rotate rotation
        pure (insertIfNew (insertIfNew acc q1) q2)) acc = some L ∧
      ∀ x, x ∈ L ↔ x ∈ acc ∨ ∃ R ∈ l, x = p1.rotateD R ∨ x = p2.rotateD R := by
  induction l generalizing acc with
  | nil => exact ⟨acc, rfl, by simp⟩
  | cons R rs ih =>
    have hR := hl R (List.mem_cons_self R rs)
    obtain ⟨L, hL, hmem⟩ := ih (fun S hS => hl S (List.mem_cons_of_mem R hS))
      (insertIfNew (insertIfNew acc (p1.rotateD R)) (p2.rotateD R))
    refine ⟨L, ?_, fun x => ?_⟩
    · simp only [List.foldlM_cons]
      rw [(rotate_spec p1 R hR).1, (rotate_spec p2 R hR).1]
      exact hL
    · rw [hmem x, insertIfNew_mem, insertIfNew_mem]
      simp only [List.mem_cons]
      constructor
      · rintro ((((h | h) | h) | ⟨S, hS, h⟩))
        · exact Or.inl h
        · exact Or.inr ⟨R, Or.inl rfl, Or.inl h⟩
        · exact Or.inr ⟨R, Or.inl rfl, Or.inr h⟩
        · exact Or.inr ⟨S, Or.inr hS, h⟩
      · rintro (h | ⟨S, (rfl | hS), h⟩)
        · exact Or.inl (Or.inl (Or.inl h))
        · rcases h with h | h
          · exact Or.inl (Or.inl (Or.inr h))
          · exact Or.inl (Or.inr h)
        · exact Or.inr ⟨S, hS, h⟩

theorem searchNew_spec : ∃ s : Search, Search.new = some s ∧
    (∀ x, x ∈ s.all_pieces ↔ ∃ R ∈ ALL_ROTATIONS,
      x = Hitmap.rotateD ⟨2639⟩ R ∨ x = Hitmap.rotateD ⟨1351168⟩ R) := by
  obtain ⟨L, hL, hmem⟩ :=
    searchNew_fold ⟨2639⟩ ⟨1351168⟩ ALL_ROTATIONS allRotations_good []
  refine ⟨⟨L⟩, ?_, fun x => ?_⟩
  · unfold Search.new
    rw [piece1_eq, piece2_eq]
    show (ALL_ROTATIONS.foldlM
      (fun acc rotation => do
        let q1 ← Hitmap.rotate ⟨2639⟩ rotation
        let q2 ← Hitmap.rotate ⟨1351168⟩ rotation
        pure (insertIfNew (insertIfNew acc q1) q2)) []) >>=
      (fun all_pieces => pure (Search.mk all_pieces)) = some ⟨L⟩
    rw [hL]
    rfl
  · rw [hmem x]
    simp

theorem searchPieces_facts (s : Search) (hs : Search.new = some s) :
    (∀ x ∈ s.all_pieces, x.mask ≠ 0 ∧ x.mask < 2 ^ 27) ∧
    (∀ x ∈ s.all_pieces, ∀ T ∈ ALL_ROTATIONS, x.rotateD T ∈ s.all_pieces) := by
  obtain ⟨s', hs', hmem⟩ := searchNew_spec
  rw [hs] at hs'
  obtain rfl := Option.some_injective _ hs'
  constructor
  · intro x hx
    obtain ⟨R, hR, hor⟩ := (hmem x).mp hx
    have hgood := allRotations_good R hR
    rcases hor with rfl | rfl
    · exact ⟨rotateD_ne_zero _ R hgood (by norm_num) (by norm_num), rotateD_lt _ R hgood⟩
    · exact ⟨rotateD_ne_zero _ R hgood (by norm_num) (by norm_num), rotateD_lt _ R hgood⟩
  · intro x hx T hT
    obtain ⟨R, hR, hor⟩ := (hmem x).mp hx
    have hgood := allRotations_good R hR
    have hgoodT := allRotations_good T hT
    rcases hor with rfl | rfl
    · exact (hmem _).mpr ⟨T.multiply R, allRotations_mult_mem T hT R hR,
        Or.inl (rotateD_rotateD _ R T hgood hgoodT)⟩
    · exact (hmem _).mpr ⟨T.multiply R, allRotations_mult_mem T hT R hR,
        Or.inr (rotateD_rotateD _ R T hgood hgoodT)⟩

/-! ### The expansion step of the search -/

theorem expand_spec (cage : Cage) (ps : List Hitmap) (fr : List Cage) (flag : Bool) :
    ∃ ch : List Cage,
      expand cage ps fr flag = (ch ++ fr, flag && ps.all fun p => (cage.add p).isNone) ∧
      (∀ d ∈ ch, ∃ p ∈ ps, cage.add p = some d) ∧ ch.length ≤ ps.length := by
  induction ps generalizing fr flag with
  | nil =>
    refine ⟨[], by simp [expand], by simp, by simp⟩
  | cons p ps ih =>
    cases hadd : cage.add p with
    | none =>
      obtain ⟨ch, h1, h2, h3⟩ := ih fr flag
      refine ⟨ch, ?_, ?_, ?_⟩
      · simp only [expand, hadd, h1, List.all_cons, Option.isNone_none, Bool.true_and]
      · intro d hd
        obtain ⟨q, hq, hq2⟩ := h2 d hd
        exact ⟨q, List.mem_cons_of_mem p hq, hq2⟩
      · exact Nat.le_trans h3 (Nat.le_succ _)
    | some c' =>
      obtain ⟨ch, h1, h2, h3⟩ := ih (c' :: fr) false
      refine ⟨ch ++ [c'], ?_, ?_, ?_⟩
      · simp only [expand, hadd, h1, List.all_cons, Option.isNone_some, Bool.false_and,
          Bool.and_false, List.append_assoc, List.singleton_append]
      · intro d hd
        rcases List.mem_append.mp hd with hd | hd
        · obtain ⟨q, hq, hq2⟩ := h2 d hd
          exact ⟨q, List.mem_cons_of_mem p hq, hq2⟩
        · obtain rfl := List.mem_singleton.mp hd
          exact ⟨p, List.mem_cons_self p ps, hadd⟩
      · rw [List.length_append, List.length_singleton]
        exact Nat.add_le_add_right h3 1

/-! ### The search loop: result invariant -/

theorem searchLoop_succ_cons (pieces : List Hitmap) (n : Nat) (cage : Cage)
    (rest acc : List Cage) :
    searchLoop pieces (n + 1) (cage :: rest) acc =
      match expand cage pieces rest true with
      | (fringe', true) =>
        match cage.canonicalize with
        | none => none
        | some cc =>
          searchLoop pieces n fringe' (if cc ∈ acc then acc else cc :: acc)
      | (fringe', false) => searchLoop pieces n fringe' acc := rfl

theorem canonicalize_terminal (pieces : List Hitmap)
    (hb : ∀ p ∈ pieces, p.mask < 2 ^ 27)
    (hcl : ∀ p ∈ pieces, ∀ T ∈ ALL_ROTATIONS, p.rotateD T ∈ pieces)
    (cage : Cage) (hm : cage.hitmap.mask < 2 ^ 27)
    (ht : ∀ p ∈ pieces, p.mask &&& cage.hitmap.mask ≠ 0) :
    ∃ cc, cage.canonicalize = some cc ∧ cc.hitmap.mask < 2 ^ 27 ∧
      ∀ p ∈ pieces, p.mask &&& cc.hitmap.mask ≠ 0 := by
  obtain ⟨hcan, hcases⟩ := canonicalize_result cage
  refine ⟨ALL_ROTATIONS.foldl (canonStep cage) cage, hcan, ?_⟩
  rcases hcases with hc | ⟨R, hR, hc⟩
  · rw [hc]
    exact ⟨hm, ht⟩
  · have hgoodR := allRotations_good R hR
    have hhit : (ALL_ROTATIONS.foldl (canonStep cage) cage).hitmap = cage.hitmap.rotateD R := by
      rw [hc]
    rw [hhit]
    refine ⟨rotateD_lt _ R hgoodR, ?_⟩
    intro p hp
    obtain ⟨T, hT, hprod1, hprod2⟩ := allRotations_inverse R hR
    have hgoodT := allRotations_good T hT
    have hq : p.rotateD T ∈ pieces := hcl p hp T hT
    have hqcage : (p.rotateD T).mask &&& cage.hitmap.mask ≠ 0 := ht _ hq
    have hrot := rotateD_and_ne_zero (p.rotateD T) cage.hitmap R hgoodR (hb _ hq) hqcage
    have hback : (p.rotateD T).rotateD R = p := by
      rw [rotateD_rotateD p T R hgoodT hgoodR, hprod1, rotateD_empty p (hb p hp)]
    rw [hback] at hrot
    exact hrot

theorem searchLoop_invariant (pieces : List Hitmap)
    (hb : ∀ p ∈ pieces, p.mask < 2 ^ 27)
    (hcl : ∀ p ∈ pieces, ∀ T ∈ ALL_ROTATIONS, p.rotateD T ∈ pieces) :
    ∀ n fringe acc res,
      (∀ c ∈ fringe, c.hitmap.mask < 2 ^ 27) →
      (∀ c ∈ acc, c.hitmap.mask < 2 ^ 27 ∧ ∀ p ∈ pieces, p.mask &&& c.hitmap.mask ≠ 0) →
      searchLoop pieces n fringe acc = some res →
      ∀ c ∈ res, c.hitmap.mask < 2 ^ 27 ∧ ∀ p ∈ pieces, p.mask &&& c.hitmap.mask ≠ 0 := by
  intro n
  induction n with
  | zero =>
    intro fringe acc res hf hacc hrun
    unfold searchLoop at hrun
    split at hrun
    · obtain rfl := Option.some_injective _ hrun
      exact hacc
    · exact absurd hrun (by simp)
  | succ n ih =>
    intro fringe acc res hf hacc hrun
    cases fringe with
    | nil =>
      have : some acc = some res := hrun
      obtain rfl := Option.some_injective _ this
      exact hacc
    | cons cage rest =>
      have hcage : cage.hitmap.mask < 2 ^ 27 := hf cage (List.mem_cons_self cage rest)
      obtain ⟨ch, hexp, hmem, hlen⟩ := expand_spec cage pieces rest true
      have hfr' : ∀ c ∈ ch ++ rest, c.hitmap.mask < 2 ^ 27 := by
        intro d hd
        rcases List.mem_append.mp hd with hd | hd
        · obtain ⟨p, hp, hpd⟩ := hmem d hd
          obtain ⟨hd0, rfl⟩ := cage_add_some_inv cage p d hpd
          exact Nat.or_lt_two_pow hcage (hb p hp)
        · exact hf d (List.mem_cons_of_mem cage hd)
      rw [searchLoop_succ_cons, hexp, Bool.true_and] at hrun
      cases hall : pieces.all fun p => (cage.add p).isNone with
      | true =>
        rw [hall] at hrun
        have hterm : ∀ p ∈ pieces, p.mask &&& cage.hitmap.mask ≠ 0 := by
          intro p hp
          have := List.all_eq_true.mp hall p hp
          rw [Option.isNone_iff_eq_none, cage_add_none_iff] at this
          rw [Nat.and_comm]
          exact this
        obtain ⟨cc, hcan, hccb, hcct⟩ :=
          canonicalize_terminal pieces hb hcl cage hcage hterm
        rw [hcan] at hrun
        refine ih (ch ++ rest) (if cc ∈ acc then acc else cc :: acc) res hfr' ?_ hrun
        intro d hd
        split at hd
        · exact hacc d hd
        · rcases List.mem_cons.mp hd with rfl | hd
          · exact ⟨hccb, hcct⟩
          · exact hacc d hd
      | false =>
        rw [hall] at hrun
        exact ih (ch ++ rest) acc res hfr' hacc hrun

/-! ### The search loop: termination -/

/-- Number of unoccupied cells among the 27 cube cells of a mask. -/
def freeCount (m : Nat) : Nat :=
  ((Finset.range 27).filter fun i => ¬ m.testBit i = true).card

/-- Termination measure of a fringe: each cage contributes exponentially
in its number of free cells, with base one more than the number of
candidate pieces (an upper bound on the branching factor). -/
def searchMeasure (P : Nat) (fringe : List Cage) : Nat :=
  (fringe.map fun c => (P + 1) ^ freeCount c.hitmap.mask).sum

theorem freeCount_lt_of_add (m p : Nat) (hnz : p ≠ 0) (hlt : p < 2 ^ 27)
    (hd : m &&& p = 0) : freeCount (m ||| p) < freeCount m := by
  obtain ⟨i, hi⟩ := Nat.ne_zero_implies_bit_true hnz
  have hilt : i < 27 := by
    by_contra hge
    rw [testBit_false_of_ge p hlt i (Nat.le_of_not_lt hge)] at hi
    exact Bool.false_ne_true hi
  have hmi : m.testBit i = false := by
    have hz : (m &&& p).testBit i = false := by rw [hd]; simp
    rw [Nat.testBit_and] at hz
    cases hm : m.testBit i
    · rfl
    · rw [hm, hi] at hz
      exact absurd hz (by simp)
  apply Finset.card_lt_card
  rw [Finset.ssubset_def]
  constructor
  · intro j hj
    rw [Finset.mem_filter] at hj ⊢
    refine ⟨hj.1, fun hbit => hj.2 ?_⟩
    rw [Nat.testBit_or, hbit, Bool.true_or]
  · intro hsub
    have hi_mem : i ∈ (Finset.range 27).filter fun j => ¬ m.testBit j = true :=
      Finset.mem_filter.mpr ⟨Finset.mem_range.mpr hilt, by rw [hmi]; simp⟩
    have := hsub hi_mem
    rw [Finset.mem_filter] at this
    exact this.2 (by rw [Nat.testBit_or, hi, Bool.or_true])

theorem freeCount_zero_full (m : Nat) (h : freeCount m = 0) :
    ∀ i < 27, m.testBit i = true := by
  intro i hilt
  by_contra hbit
  have hi_mem : i ∈ (Finset.range 27).filter fun j => ¬ m.testBit j = true :=
    Finset.mem_filter.mpr ⟨Finset.mem_range.mpr hilt, hbit⟩
  rw [Finset.card_eq_zero.mp h] at hi_mem
  exact absurd hi_mem (Finset.not_mem_empty i)

theorem searchLoop_completes (pieces : List Hitmap)
    (hnz : ∀ p ∈ pieces, p.mask ≠ 0) (hb : ∀ p ∈ pieces, p.mask < 2 ^ 27) :
    ∀ N fringe acc, searchMeasure pieces.length fringe ≤ N →
      ∃ n res, searchLoop pieces n fringe acc = some res := by
  intro N
  induction N with
  | zero =>
    intro fringe acc hmu
    cases fringe with
    | nil => exact ⟨0, acc, by simp [searchLoop]⟩
    | cons cage rest =>
      exfalso
      have hpos : 0 < (pieces.length + 1) ^ freeCount cage.hitmap.mask :=
        Nat.pos_pow_of_pos _ (Nat.succ_pos _)
      have : searchMeasure pieces.length (cage :: rest) =
          (pieces.length + 1) ^ freeCount cage.hitmap.mask +
            searchMeasure pieces.length rest := by
        unfold searchMeasure
        rw [List.map_cons, List.sum_cons]
      omega
  | succ N ih =>
    intro fringe acc hmu
    cases fringe with
    | nil => exact ⟨0, acc, by simp [searchLoop]⟩
    | cons cage rest =>
      obtain ⟨ch, hexp, hmem, hlen⟩ := expand_spec cage pieces rest true
      have hsplit : searchMeasure pieces.length (cage :: rest) =
          (pieces.length + 1) ^ freeCount cage.hitmap.mask +
            searchMeasure pieces.length rest := by
        unfold searchMeasure
        rw [List.map_cons, List.sum_cons]
      have happ : searchMeasure pieces.length (ch ++ rest) =
          searchMeasure pieces.length ch + searchMeasure pieces.length rest := by
        unfold searchMeasure
        rw [List.map_append, List.sum_append]
      have hmu' : searchMeasure pieces.length (ch ++ rest) ≤ N := by
        rcases Nat.eq_zero_or_pos (freeCount cage.hitmap.mask) with hf | hf
        · have hch : ch = [] := by
            rw [List.eq_nil_iff_forall_not_mem]
            intro d hd
            obtain ⟨p, hp, hpd⟩ := hmem d hd
            obtain ⟨hd0, rfl⟩ := cage_add_some_inv cage p d hpd
            obtain ⟨i, hi⟩ := Nat.ne_zero_implies_bit_true (hnz p hp)
            have hilt : i < 27 := by
              by_contra hge
              rw [testBit_false_of_ge p.mask (hb p hp) i (Nat.le_of_not_lt hge)] at hi
              exact Bool.false_ne_true hi
            have hfull := freeCount_zero_full cage.hitmap.mask hf i hilt
            have : (cage.hitmap.mask &&& p.mask).testBit i = true := by
              rw [Nat.testBit_and, hfull, hi]
              rfl
            rw [hd0] at this
            exact absurd this (by simp)
          subst hch
          have hze : searchMeasure pieces.length (([] : List Cage) ++ rest) =
              searchMeasure pieces.length rest := by
            rw [List.nil_append]
          have hpos : 0 < (pieces.length + 1) ^ freeCount cage.hitmap.mask :=
            Nat.pos_pow_of_pos _ (Nat.succ_pos _)
          omega
        · obtain ⟨f', hf'⟩ : ∃ f', freeCount cage.hitmap.mask = f' + 1 :=
            ⟨freeCount cage.hitmap.mask - 1, by omega⟩
          have hchild : ∀ x ∈ ch.map fun c => (pieces.length + 1) ^ freeCount c.hitmap.mask,
              x ≤ (pieces.length + 1) ^ f' := by
            intro x hx
            rw [List.mem_map] at hx
            obtain ⟨d, hd, rfl⟩ := hx
            obtain ⟨p, hp, hpd⟩ := hmem d hd
            obtain ⟨hd0, hdeq⟩ := cage_add_some_inv cage p d hpd
            have hdmask : d.hitmap.mask = cage.hitmap.mask ||| p.mask := by rw [hdeq]
            have hflt := freeCount_lt_of_add cage.hitmap.mask p.mask (hnz p hp) (hb p hp) hd0
            rw [hdmask]
            exact Nat.pow_le_pow_right (Nat.succ_pos _) (by omega)
          have hsum : searchMeasure pieces.length ch ≤
              ch.length * (pieces.length + 1) ^ f' := by
            have := List.sum_le_card_nsmul
              (ch.map fun c => (pieces.length + 1) ^ freeCount c.hitmap.mask)
              ((pieces.length + 1) ^ f') hchild
            rw [List.length_map, smul_eq_mul] at this
            exact this
          have hstrict : ch.length * (pieces.length + 1) ^ f' <
              (pieces.length + 1) ^ (f' + 1) := by
            rw [pow_succ]
            have hp1 : 0 < (pieces.length + 1) ^ f' := Nat.pos_pow_of_pos _ (Nat.succ_pos _)
            have : ch.length < pieces.length + 1 := by omega
            calc ch.length * (pieces.length + 1) ^ f'
                ≤ pieces.length * (pieces.length + 1) ^ f' :=
                  Nat.mul_le_mul_right _ hlen
              _ < (pieces.length + 1) * (pieces.length + 1) ^ f' :=
                  Nat.mul_lt_mul_of_pos_right (Nat.lt_succ_self _) hp1
              _ = (pieces.length + 1) ^ f' * (pieces.length + 1) := Nat.mul_comm _ _
          rw [hf'] at hsplit
          omega
      cases hall : pieces.all fun p => (cage.add p).isNone with
      | true =>
        obtain ⟨n, res, hn⟩ := ih (ch ++ rest)
          (if (ALL_ROTATIONS.foldl (canonStep cage) cage) ∈ acc then acc
           else (ALL_ROTATIONS.foldl (canonStep cage) cage) :: acc) hmu'
        refine ⟨n + 1, res, ?_⟩
        rw [searchLoop_succ_cons, hexp, Bool.true_and, hall, canonicalize_eq_foldl cage]
        exact hn
      | false =>
        obtain ⟨n, res, hn⟩ := ih (ch ++ rest) acc hmu'
        refine ⟨n + 1, res, ?_⟩
        rw [searchLoop_succ_cons, hexp, Bool.true_and, hall]
        exact hn

/-! ### Remaining helpers for the claim theorems -/

/-- Matrix transpose (used to state orthonormality). -/
def Rotation.transpose (r : Rotation) : Rotation :=
  ⟨r.a00, r.a10, r.a20, r.a01, r.a11, r.a21, r.a02, r.a12, r.a22⟩

/-- Matrix determinant (used to state properness of the rotations). -/
def Rotation.det (r : Rotation) : Int :=
  r.a00 * (r.a11 * r.a22 - r.a12 * r.a21) -
    r.a01 * (r.a10 * r.a22 - r.a12 * r.a20) +
    r.a02 * (r.a10 * r.a21 - r.a11 * r.a20)

theorem nat_or_eq_zero_parts (a b : Nat) (h : a ||| b = 0) : a = 0 ∧ b = 0 :=
  ⟨nat_or_ne_zero_left a b h, nat_or_ne_zero_left b a (by rw [Nat.or_comm]; exact h)⟩

theorem sort_append_swap (ps : List Hitmap) (A B : Hitmap) :
    List.insertionSort hitLE (List.insertionSort hitLE (ps ++ [A]) ++ [B]) =
      List.insertionSort hitLE (List.insertionSort hitLE (ps ++ [B]) ++ [A]) := by
  apply List.eq_of_perm_of_sorted ?_ (List.sorted_insertionSort hitLE _)
    (List.sorted_insertionSort hitLE _)
  have hmid : (ps ++ [A] ++ [B]).Perm (ps ++ [B] ++ [A]) := by
    rw [List.append_assoc, List.append_assoc]
    exact List.Perm.append_left ps (List.Perm.swap B A [])
  calc List.insertionSort hitLE (List.insertionSort hitLE (ps ++ [A]) ++ [B])
      ≈ List.insertionSort hitLE (ps ++ [A]) ++ [B] := List.perm_insertionSort hitLE _
    _ ≈ ps ++ [A] ++ [B] := (List.perm_insertionSort hitLE _).append_right [B]
    _ ≈ ps ++ [B] ++ [A] := hmid
    _ ≈ List.insertionSort hitLE (ps ++ [B]) ++ [A] :=
        ((List.perm_insertionSort hitLE _).append_right [A]).symm
    _ ≈ List.insertionSort hitLE (List.insertionSort hitLE (ps ++ [B]) ++ [A]) :=
        (List.perm_insertionSort hitLE _).symm

/-! ### The claim theorems -/

/-- C1: the lazily computed rotation set `ALL_ROTATIONS` contains exactly
24 matrices, pairwise distinct under structural equality, each an
orthonormal integer matrix (its transpose is a two-sided inverse) with
determinant +1, and the set is closed under matrix multiplication. -/
theorem claim1_all_rotations_group :
    ALL_ROTATIONS.length = 24 ∧ ALL_ROTATIONS.Nodup ∧
    (∀ R ∈ ALL_ROTATIONS, R.multiply R.transpose = Rotation.empty ∧
      R.transpose.multiply R = Rotation.empty ∧ R.det = 1) ∧
    (∀ R ∈ ALL_ROTATIONS, ∀ S ∈ ALL_ROTATIONS, R.multiply S ∈ ALL_ROTATIONS) :=
  ⟨by decide, by decide, by decide, allRotations_mult_mem⟩

/-- C2: the search loop of `Search::search`, run on the candidate set
built by `Search::new`, completes (for sufficient fuel), and every Cage in
any completed result set is terminal: adding any candidate piece to it
returns the does-not-fit error. -/
theorem claim2_search_results_terminal :
    ∃ s : Search, Search.new = some s ∧ (∃ n res, s.search n = some res) ∧
      ∀ n res, s.search n = some res →
        ∀ cage ∈ res, ∀ piece ∈ s.all_pieces, cage.add piece = none := by
  obtain ⟨s, hs, _⟩ := searchNew_spec
  obtain ⟨hzb, hcl⟩ := searchPieces_facts s hs
  have hb : ∀ p ∈ s.all_pieces, p.mask < 2 ^ 27 := fun p hp => (hzb p hp).2
  refine ⟨s, hs, ?_, ?_⟩
  · obtain ⟨n, res, hn⟩ := searchLoop_completes s.all_pieces (fun p hp => (hzb p hp).1) hb
      (searchMeasure s.all_pieces.length [Cage.new]) [Cage.new] [] (Nat.le_refl _)
    exact ⟨n, res, hn⟩
  · intro n res hrun cage hc piece hp
    have hinv := searchLoop_invariant s.all_pieces hb hcl n [Cage.new] [] res
      (fun c hmem => by rw [List.mem_singleton.mp hmem]; decide)
      (fun c hmem => absurd hmem (List.not_mem_nil c)) hrun cage hc
    rw [cage_add_none_iff, Nat.and_comm]
    exact hinv.2 piece hp

/-- C3: counterexample to rotation invariance of `Cage::canonicalize`.
The cage c2 = (mask 336, pieces [80, 256]) is the image of the cage
c1 = (mask 21, pieces [1, 20]) under the 180-degree z rotation (a member
of `ALL_ROTATIONS`), with its piece list re-sorted; yet the two cages
canonicalize to different Cages: c1 is already canonical, while c2
canonicalizes to (mask 21, pieces [20, 1]) because `canonicalize` does
not re-sort the rotated piece list. -/
theorem claim3_canonicalize_not_rotation_invariant :
    (⟨-1, 0, 0, 0, -1, 0, 0, 0, 1⟩ : Rotation) ∈ ALL_ROTATIONS ∧
    Hitmap.rotate ⟨21⟩ ⟨-1, 0, 0, 0, -1, 0, 0, 0, 1⟩ = some ⟨336⟩ ∧
    Hitmap.rotate ⟨1⟩ ⟨-1, 0, 0, 0, -1, 0, 0, 0, 1⟩ = some ⟨256⟩ ∧
    Hitmap.rotate ⟨20⟩ ⟨-1, 0, 0, 0, -1, 0, 0, 0, 1⟩ = some ⟨80⟩ ∧
    List.insertionSort hitLE [⟨256⟩, ⟨80⟩] = [⟨80⟩, ⟨256⟩] ∧
    Cage.canonicalize ⟨⟨21⟩, [⟨1⟩, ⟨20⟩]⟩ = some ⟨⟨21⟩, [⟨1⟩, ⟨20⟩]⟩ ∧
    Cage.canonicalize ⟨⟨336⟩, [⟨80⟩, ⟨256⟩]⟩ = some ⟨⟨21⟩, [⟨20⟩, ⟨1⟩]⟩ ∧
    Cage.canonicalize ⟨⟨21⟩, [⟨1⟩, ⟨20⟩]⟩ ≠ Cage.canonicalize ⟨⟨336⟩, [⟨80⟩, ⟨256⟩]⟩ := by
  refine ⟨by decide, by decide, by decide, by decide, by decide, ?_, ?_, ?_⟩
  · decide
  · decide
  · decide

/-- C4: the piece list of a Cage returned by `Cage::add` is always sorted
(first conjunct), but `Cage::canonicalize` can return a Cage whose piece
list is NOT sorted: the cage (mask 336, pieces [80, 256]) — whose piece
list is sorted — canonicalizes to (mask 21, pieces [20, 1]), and
[20, 1] is not sorted. -/
theorem claim4_canonicalize_pieces_unsorted :
    (∀ c : Cage, ∀ p : Hitmap, ∀ d : Cage, c.add p = some d →
      List.Sorted hitLE d.pieces) ∧
    List.Sorted hitLE [(⟨80⟩ : Hitmap), ⟨256⟩] ∧
    Cage.canonicalize ⟨⟨336⟩, [⟨80⟩, ⟨256⟩]⟩ = some ⟨⟨21⟩, [⟨20⟩, ⟨1⟩]⟩ ∧
    ¬ List.Sorted hitLE [(⟨20⟩ : Hitmap), ⟨1⟩] := by
  refine ⟨?_, by decide, by decide, by decide⟩
  intro c p d hd
  obtain ⟨h0, rfl⟩ := cage_add_some_inv c p d hd
  exact List.sorted_insertionSort hitLE _

/-- C5: `Cage::add` returns the does-not-fit error precisely when the
piece's mask shares a set bit with the cage's mask; on success the new
Cage's mask is the bitwise or of the two (the argument Cage is a value
and is never mutated in the embedding). -/
theorem claim5_cage_add_iff (c : Cage) (piece : Hitmap) :
    (c.add piece = none ↔ c.hitmap.mask &&& piece.mask ≠ 0) ∧
    ∀ d, c.add piece = some d → d.hitmap.mask = c.hitmap.mask ||| piece.mask := by
  refine ⟨cage_add_none_iff c piece, fun d hd => ?_⟩
  obtain ⟨h0, rfl⟩ := cage_add_some_inv c piece d hd
  rfl

/-- Witness for C5 at the empty cage and the piece with mask 5. -/
theorem claim5_cage_add_iff_witness :
    (Cage.add Cage.new ⟨5⟩ = none ↔ Cage.new.hitmap.mask &&& (Hitmap.mk 5).mask ≠ 0) ∧
    ∀ d, Cage.add Cage.new ⟨5⟩ = some d →
      d.hitmap.mask = Cage.new.hitmap.mask ||| (Hitmap.mk 5).mask :=
  claim5_cage_add_iff Cage.new ⟨5⟩

/-- C6: `Cage::add` is commutative: if adding A then B succeeds, then
adding B then A succeeds and produces the same mask and the same
(sorted) piece list. -/
theorem claim6_cage_add_comm (c : Cage) (A B : Hitmap) (d : Cage)
    (h : (c.add A).bind (fun c1 => c1.add B) = some d) :
    ∃ d2, (c.add B).bind (fun c1 => c1.add A) = some d2 ∧
      d2.hitmap = d.hitmap ∧ d2.pieces = d.pieces := by
  obtain ⟨c1, hc1, hd⟩ := Option.bind_eq_some.mp h
  obtain ⟨hA0, rfl⟩ := cage_add_some_inv c A c1 hc1
  obtain ⟨hB0, rfl⟩ := cage_add_some_inv _ B d hd
  have hB0' : (c.hitmap.mask &&& B.mask) ||| (A.mask &&& B.mask) = 0 := by
    rw [← Nat.and_distrib_right]
    exact hB0
  obtain ⟨hcB, hAB⟩ := nat_or_eq_zero_parts _ _ hB0'
  have hstep1 : c.add B = some ⟨⟨c.hitmap.mask ||| B.mask⟩,
      List.insertionSort hitLE (c.pieces ++ [B])⟩ := cage_add_some c B hcB
  have hA0' : (c.hitmap.mask ||| B.mask) &&& A.mask = 0 := by
    rw [Nat.and_distrib_right, hA0, Nat.and_comm B.mask A.mask, hAB]
    rfl
  have hstep2 := cage_add_some ⟨⟨c.hitmap.mask ||| B.mask⟩,
      List.insertionSort hitLE (c.pieces ++ [B])⟩ A hA0'
  refine ⟨⟨⟨(c.hitmap.mask ||| B.mask) ||| A.mask⟩,
      List.insertionSort hitLE (List.insertionSort hitLE (c.pieces ++ [B]) ++ [A])⟩,
      ?_, ?_, ?_⟩
  · rw [hstep1]
    exact hstep2
  · apply Hitmap.mask_inj
    show (c.hitmap.mask ||| B.mask) ||| A.mask = (c.hitmap.mask ||| A.mask) ||| B.mask
    rw [Nat.or_assoc, Nat.or_assoc, Nat.or_comm B.mask A.mask]
  · exact (sort_append_swap c.pieces A B).symm

/-- Witness for C6 at the empty cage with single-bit pieces 1 and 2. -/
theorem claim6_cage_add_comm_witness :
    ∃ d2, (Cage.add Cage.new ⟨2⟩).bind (fun c1 => c1.add ⟨1⟩) = some d2 ∧
      d2.hitmap = (⟨⟨3⟩, [⟨1⟩, ⟨2⟩]⟩ : Cage).hitmap ∧
      d2.pieces = (⟨⟨3⟩, [⟨1⟩, ⟨2⟩]⟩ : Cage).pieces :=
  claim6_cage_add_comm Cage.new ⟨1⟩ ⟨2⟩ ⟨⟨3⟩, [⟨1⟩, ⟨2⟩]⟩ (by decide)

/-- C7: `Cage::canonicalize` is idempotent: canonicalizing any Cage
succeeds, and canonicalizing the result returns it unchanged. -/
theorem claim7_canonicalize_idempotent (c : Cage) :
    ∃ r, c.canonicalize = some r ∧ r.canonicalize = some r :=
  ⟨ALL_ROTATIONS.foldl (canonStep c) c, canonicalize_eq_foldl c, canonicalize_idem_aux c⟩

/-- Witness for C7 at a concrete two-piece cage. -/
theorem claim7_canonicalize_idempotent_witness :
    ∃ r, Cage.canonicalize ⟨⟨336⟩, [⟨80⟩, ⟨256⟩]⟩ = some r ∧ r.canonicalize = some r :=
  claim7_canonicalize_idempotent ⟨⟨336⟩, [⟨80⟩, ⟨256⟩]⟩

/-- C8: the search terminates: there is a fuel bound under which the
pop/expand loop of `Search::search`, started from the single empty Cage,
drains its work list and returns a result set. -/
theorem claim8_search_terminates :
    ∃ s : Search, Search.new = some s ∧ ∃ n res, s.search n = some res := by
  obtain ⟨s, hs, _⟩ := searchNew_spec
  obtain ⟨hzb, _⟩ := searchPieces_facts s hs
  obtain ⟨n, res, hn⟩ := searchLoop_completes s.all_pieces (fun p hp => (hzb p hp).1)
    (fun p hp => (hzb p hp).2) (searchMeasure s.all_pieces.length [Cage.new])
    [Cage.new] [] (Nat.le_refl _)
  exact ⟨s, hs, n, res, hn⟩

/-- C9: no assertion ever fires: the base-piece construction of
`Search::new` (including the unit-z shift making the second piece)
succeeds, every mask in the candidate set has only bits 0..26 set, every
`Hitmap::rotate` by a rotation of `ALL_ROTATIONS` succeeds on every
Hitmap and yields a mask with only bits 0..26 set, and a full search run
completes with every stored Cage mask within bits 0..26. -/
theorem claim9_no_assertion_fires :
    (∃ s : Search, Search.new = some s ∧ ∀ p ∈ s.all_pieces, p.mask < 2 ^ 27) ∧
    (∀ R ∈ ALL_ROTATIONS, ∀ h : Hitmap, ∃ h2, h.rotate R = some h2 ∧ h2.mask < 2 ^ 27) ∧
    (∃ s : Search, Search.new = some s ∧ ∃ n res, s.search n = some res ∧
      ∀ cage ∈ res, cage.hitmap.mask < 2 ^ 27) := by
  obtain ⟨s, hs, _⟩ := searchNew_spec
  obtain ⟨hzb, hcl⟩ := searchPieces_facts s hs
  have hb : ∀ p ∈ s.all_pieces, p.mask < 2 ^ 27 := fun p hp => (hzb p hp).2
  refine ⟨⟨s, hs, hb⟩, ?_, ?_⟩
  · intro R hR h
    obtain ⟨h1, _, h3⟩ := rotate_spec h R (allRotations_good R hR)
    exact ⟨h.rotateD R, h1, h3⟩
  · obtain ⟨n, res, hn⟩ := searchLoop_completes s.all_pieces (fun p hp => (hzb p hp).1) hb
      (searchMeasure s.all_pieces.length [Cage.new]) [Cage.new] [] (Nat.le_refl _)
    refine ⟨s, hs, n, res, hn, ?_⟩
    intro cage hc
    exact (searchLoop_invariant s.all_pieces hb hcl n [Cage.new] [] res
      (fun c hmem => by rw [List.mem_singleton.mp hmem]; decide)
      (fun c hmem => absurd hmem (List.not_mem_nil c)) hn cage hc).1

/-- C10: on any Hitmap with only bits 0..26 set, rotating by the identity
rotation returns an equal Hitmap, and for every rotation R of the
24-element set there is an inverse rotation in the set such that rotating
by R and then by the inverse returns the original Hitmap. -/
theorem claim10_rotate_id_inverse (h : Hitmap) (hlt : h.mask < 2 ^ 27) :
    h.rotate Rotation.empty = some h ∧
    ∀ R ∈ ALL_ROTATIONS, ∃ Rinv ∈ ALL_ROTATIONS,
      Rinv.multiply R = Rotation.empty ∧ R.multiply Rinv = Rotation.empty ∧
      (h.rotate R).bind (fun h2 => h2.rotate Rinv) = some h := by
  constructor
  · have h1 := (rotate_spec h Rotation.empty empty_goodRot).1
    rw [rotateD_empty h hlt] at h1
    exact h1
  · intro R hR
    obtain ⟨T, hT, hp1, hp2⟩ := allRotations_inverse R hR
    refine ⟨T, hT, hp2, hp1, ?_⟩
    rw [(rotate_spec h R (allRotations_good R hR)).1]
    show Hitmap.rotate (h.rotateD R) T = some h
    rw [(rotate_spec (h.rotateD R) T (allRotations_good T hT)).1,
      rotateD_rotateD h R T (allRotations_good R hR) (allRotations_good T hT), hp2,
      rotateD_empty h hlt]

/-- Witness for C10 at the Hitmap with mask 5. -/
theorem claim10_rotate_id_inverse_witness :
    Hitmap.rotate ⟨5⟩ Rotation.empty = some ⟨5⟩ ∧
    ∀ R ∈ ALL_ROTATIONS, ∃ Rinv ∈ ALL_ROTATIONS,
      Rinv.multiply R = Rotation.empty ∧ R.multiply Rinv = Rotation.empty ∧
      (Hitmap.rotate ⟨5⟩ R).bind (fun h2 => h2.rotate Rinv) = some ⟨5⟩ :=
  claim10_rotate_id_inverse ⟨5⟩ (by norm_num)
